import Mathlib

/-!
Verification of the NFA-to-DFA subset-construction program (`main.py`).

The program represents an NFA as a Python object holding a set of states, an
alphabet of string symbols (the empty string `""` denotes epsilon), a
transition dictionary mapping `(state, symbol)` pairs to sets of destination
states, a start state and a set of accepting states.  The core functions are
`epsilon_closure` (stack-driven worklist closure), `move` (union of direct
destinations) and `nfa_to_dfa` (queue-driven subset construction producing
the DFA state set, transition dictionary, start state and accept set).

This file embeds those functions shallowly: Python sets become `Finset`,
Python dictionaries become association lists with unique keys (`dictFind`,
`dictSet`, `dictGetD` model `d[k]`-style lookup, assignment and `d.get`),
and the two unbounded loops become fuel-indexed recursions whose fuel is
proved sufficient.  All definitions are executable.
-/

namespace NfaToDfa

variable {σ : Type} [DecidableEq σ]

/-- One concrete enumeration of a Python set (iteration order is unspecified
in the source; the results proved below are order-independent).  Implemented
by insertion sort so that it evaluates by kernel reduction. -/
def enum {α : Type} [LinearOrder α] (S : Finset α) : List α :=
  Quot.liftOn S.val
    (fun l => List.insertionSort (fun a b => a ≤ b) l)
    (fun l₁ l₂ h => by
      haveI : IsAntisymm α (fun a b => a ≤ b) := ⟨fun _ _ h1 h2 => le_antisymm h1 h2⟩
      haveI : IsTotal α (fun a b => a ≤ b) := ⟨le_total⟩
      haveI : IsTrans α (fun a b => a ≤ b) := ⟨fun _ _ _ => le_trans⟩
      exact List.eq_of_perm_of_sorted
        (((List.perm_insertionSort _ l₁).trans h).trans
          (List.perm_insertionSort _ l₂).symm)
        (List.sorted_insertionSort _ l₁) (List.sorted_insertionSort _ l₂))

/-- Enumeration of a Python set of symbol strings, ordered by their
character lists (again: iteration order is unspecified in the source, and
the results proved below are order-independent). -/
def enumSym (S : Finset String) : List String :=
  Quot.liftOn S.val
    (fun l => List.insertionSort (fun a b => a.data ≤ b.data) l)
    (fun l₁ l₂ h => by
      haveI : IsAntisymm String (fun a b => a.data ≤ b.data) :=
        ⟨fun a b h1 h2 => by
          cases a; cases b
          exact congrArg String.mk (le_antisymm h1 h2)⟩
      haveI : IsTotal String (fun a b => a.data ≤ b.data) :=
        ⟨fun a b => le_total a.data b.data⟩
      haveI : IsTrans String (fun a b => a.data ≤ b.data) :=
        ⟨fun _ _ _ => le_trans⟩
      exact List.eq_of_perm_of_sorted
        (((List.perm_insertionSort _ l₁).trans h).trans
          (List.perm_insertionSort _ l₂).symm)
        (List.sorted_insertionSort _ l₁) (List.sorted_insertionSort _ l₂))

/-- Lookup in a Python dictionary modelled as an association list:
`d.get(k)` returning `None` when the key is absent. -/
def dictFind {κ ν : Type} [DecidableEq κ] (d : List (κ × ν)) (k : κ) : Option ν :=
  (d.find? (fun e => decide (e.1 = k))).map Prod.snd

/-- `d.get(k, default)`: lookup with a default value. -/
def dictGetD {κ ν : Type} [DecidableEq κ] (d : List (κ × ν)) (k : κ) (v₀ : ν) : ν :=
  (dictFind d k).getD v₀

/-- Python dictionary assignment `d[k] = v`: replaces the value at an existing
key in place, otherwise appends a fresh entry. -/
def dictSet {κ ν : Type} [DecidableEq κ] (d : List (κ × ν)) (k : κ) (v : ν) : List (κ × ν) :=
  if (d.find? (fun e => decide (e.1 = k))).isSome then
    d.map (fun e => if e.1 = k then (k, v) else e)
  else
    d ++ [(k, v)]

/-- `d` has an entry for key `k`. -/
def hasKey {κ ν : Type} [DecidableEq κ] (d : List (κ × ν)) (k : κ) : Prop :=
  (dictFind d k).isSome

instance {κ ν : Type} [DecidableEq κ] (d : List (κ × ν)) (k : κ) :
    Decidable (hasKey d k) := by
  unfold hasKey; infer_instance

/-- The NFA object built by `NFA.__init__`: `states`, `alphabet`,
`transitions` (a defaultdict from `(state, symbol)` to a set of states,
kept here as an association list with unique keys), `start_state` and
`accept_states`.  Symbols are strings; `""` is the epsilon symbol. -/
structure NFA (σ : Type) [DecidableEq σ] where
  states : Finset σ
  alphabet : Finset String
  trans : List ((σ × String) × Finset σ)
  start_state : σ
  accept_states : Finset σ

/-- `nfa.transitions.get((s, sym), ∅)`: the destination set recorded for
`(s, sym)`, empty when absent. -/
def NFA.get (n : NFA σ) (s : σ) (sym : String) : Finset σ :=
  dictGetD n.trans (s, sym) ∅

/-- Union of every destination set appearing in the transition dictionary. -/
def allDests (n : NFA σ) : Finset σ :=
  n.trans.foldr (fun e acc => e.2 ∪ acc) ∅

/-- Every state a run of the construction can ever touch: the start state
together with every recorded destination. -/
def bigU (n : NFA σ) : Finset σ :=
  insert n.start_state (allDests n)

/-- The inner `for nxt in dests` loop of `epsilon_closure`: each destination
not yet in the closure is added to it and pushed on the stack. -/
def processDests : List σ → Finset σ × List σ → Finset σ × List σ
  | [], acc => acc
  | nxt :: rest, (c, st) =>
      if nxt ∈ c then processDests rest (c, st)
      else processDests rest (insert nxt c, nxt :: st)

/-- The `while stack` loop of `epsilon_closure`, fuel-indexed: pop a state,
fold its epsilon destinations into the closure and stack. -/
def closureAux [LinearOrder σ] (n : NFA σ) : Nat → List σ → Finset σ → Finset σ × List σ
  | 0, st, c => (c, st)
  | _ + 1, [], c => (c, [])
  | fuel + 1, s :: st, c =>
      let p := processDests (enum (n.get s "")) (c, st)
      closureAux n fuel p.2 p.1

/-- `epsilon_closure(nfa, state_set)`: stack seeded with the input set,
closure initialised to it; the fuel `|S| + |allDests|` is proved sufficient
below (`closureAux_spec`). -/
def epsilon_closure [LinearOrder σ] (n : NFA σ) (S : Finset σ) : Finset σ :=
  (closureAux n (S.card + (allDests n).card) (enum S) S).1

/-- `move(nfa, state_set, symbol)`: the union over `s ∈ state_set` of
`nfa.transitions.get((s, symbol), ∅)`. -/
def move (n : NFA σ) (S : Finset σ) (sym : String) : Finset σ :=
  S.biUnion (fun s => n.get s sym)

/-- One epsilon edge: `b` is a recorded `""`-destination of `a`. -/
def epsStep (n : NFA σ) (a b : σ) : Prop := b ∈ n.get a ""

/-- `x` is reachable from some member of `S` by zero or more epsilon edges. -/
def epsReach (n : NFA σ) (S : Finset σ) (x : σ) : Prop :=
  ∃ s ∈ S, Relation.ReflTransGen (epsStep n) s x

/-- The accumulated state of `nfa_to_dfa`: the discovered DFA state set, the
DFA transition dictionary, the DFA accept set, the pending worklist queue,
and the (never modified after initialisation) DFA start state and alphabet,
mirroring the tuple the Python function returns. -/
structure DfaBuild (σ : Type) [DecidableEq σ] where
  dfa_states : Finset (Finset σ)
  dfa_trans : List ((Finset σ × String) × Finset σ)
  dfa_accept : Finset (Finset σ)
  queue : List (Finset σ)
  start : Finset σ
  alpha : Finset String

/-- `frozenset(epsilon_closure(nfa, {nfa.start_state}))`: the DFA start. -/
def startSet [LinearOrder σ] (n : NFA σ) : Finset σ :=
  epsilon_closure n {n.start_state}

/-- The state of the construction just before the `while queue` loop:
`dfa_states = {start}`, queue seeded with `start`, `start` accepting iff it
intersects the NFA accept set. -/
def initBuild [LinearOrder σ] (n : NFA σ) : DfaBuild σ :=
  { dfa_states := {startSet n},
    dfa_trans := [],
    dfa_accept := if (n.accept_states ∩ startSet n).Nonempty then {startSet n} else ∅,
    queue := [startSet n],
    start := startSet n,
    alpha := n.alphabet }

/-- The body of the symbol loop when the target subset was seen before:
only the transition entry `dfa_trans[(curr, sym)] = nxt` is assigned. -/
def stepKeep [LinearOrder σ] (n : NFA σ) (curr : Finset σ) (sym : String)
    (b : DfaBuild σ) : DfaBuild σ :=
  { b with
    dfa_trans := dictSet b.dfa_trans (curr, sym)
      (epsilon_closure n (move n curr sym)) }

/-- The body of the symbol loop when the target subset is new: the entry is
assigned and the target is discovered, enqueued, and added to the accept
set when it meets the NFA accept set. -/
def stepNew [LinearOrder σ] (n : NFA σ) (curr : Finset σ) (sym : String)
    (b : DfaBuild σ) : DfaBuild σ :=
  { b with
    dfa_states := insert (epsilon_closure n (move n curr sym)) b.dfa_states,
    dfa_trans := dictSet b.dfa_trans (curr, sym)
      (epsilon_closure n (move n curr sym)),
    dfa_accept := if (n.accept_states ∩ epsilon_closure n (move n curr sym)).Nonempty
      then insert (epsilon_closure n (move n curr sym)) b.dfa_accept
      else b.dfa_accept,
    queue := b.queue ++ [epsilon_closure n (move n curr sym)] }

/-- The inner `for sym in alpha` loop of `nfa_to_dfa`: for each symbol,
record `dfa_trans[(curr, sym)] = epsilon_closure(move(curr, sym))`; a
previously unseen target is added to the DFA state set, appended to the
queue, and added to the accept set when it intersects the NFA accept set. -/
def processSyms [LinearOrder σ] (n : NFA σ) (curr : Finset σ) :
    List String → DfaBuild σ → DfaBuild σ
  | [], b => b
  | sym :: rest, b =>
      if epsilon_closure n (move n curr sym) ∈ b.dfa_states then
        processSyms n curr rest (stepKeep n curr sym b)
      else
        processSyms n curr rest (stepNew n curr sym b)

/-- The `while queue` loop of `nfa_to_dfa`, fuel-indexed: dequeue a subset
from the front and process every alphabet symbol for it. -/
def dfaLoop [LinearOrder σ] (n : NFA σ) : Nat → DfaBuild σ → DfaBuild σ
  | 0, b => b
  | fuel + 1, b =>
      match b.queue with
      | [] => b
      | curr :: rest =>
          dfaLoop n fuel (processSyms n curr (enumSym n.alphabet) { b with queue := rest })

/-- `nfa_to_dfa(nfa)`: run the worklist loop from the initial state; the
fuel `2 ^ |bigU|` is proved sufficient below (`nfa_to_dfa_queue_eq_nil`). -/
def nfa_to_dfa [LinearOrder σ] (n : NFA σ) : DfaBuild σ :=
  dfaLoop n (2 ^ (bigU n).card) (initBuild n)

/-- The keys of a dictionary, in insertion order. -/
def keysOf {κ ν : Type} (d : List (κ × ν)) : List κ :=
  d.map (fun e => e.1)

/-- Invariant of the construction loop, independent of the queue position:
the start is discovered; every transition entry's value is the closed move
set of its key, is itself discovered, has a discovered source and an
alphabet symbol; the accept set is exactly the discovered sets meeting the
NFA accept set; queued sets are discovered; dictionary keys are unique; and
every discovered set consists of start/destination states only. -/
structure InvCore [LinearOrder σ] (n : NFA σ) (b : DfaBuild σ) : Prop where
  hstart : startSet n ∈ b.dfa_states
  htrans : ∀ e ∈ b.dfa_trans,
    e.2 = epsilon_closure n (move n e.1.1 e.1.2) ∧ e.2 ∈ b.dfa_states ∧
      e.1.1 ∈ b.dfa_states ∧ e.1.2 ∈ n.alphabet
  haccept : ∀ T, T ∈ b.dfa_accept ↔ T ∈ b.dfa_states ∧ (n.accept_states ∩ T).Nonempty
  hqueue : ∀ T ∈ b.queue, T ∈ b.dfa_states
  hkeys : (keysOf b.dfa_trans).Nodup
  hbound : ∀ T ∈ b.dfa_states, T ⊆ bigU n

/-- Full loop invariant: additionally, every discovered subset is either
still queued or already has a transition entry for every alphabet symbol. -/
def Inv [LinearOrder σ] (n : NFA σ) (b : DfaBuild σ) : Prop :=
  InvCore n b ∧
    ∀ T ∈ b.dfa_states, T ∈ b.queue ∨ ∀ a ∈ n.alphabet, hasKey b.dfa_trans (T, a)

/-- Run a word through a DFA transition dictionary; `none` when a needed
entry is absent. -/
def dfaRun (d : List ((Finset σ × String) × Finset σ)) :
    Finset σ → List String → Option (Finset σ)
  | T, [] => some T
  | T, a :: w =>
      match dictFind d (T, a) with
      | none => none
      | some U => dfaRun d U w

/-- The constructed DFA accepts `w`: running `w` through `dfa_trans` from the
DFA start state ends in a member of `dfa_accept`. -/
def dfaAccepts [LinearOrder σ] (n : NFA σ) (w : List String) : Prop :=
  match dfaRun (nfa_to_dfa n).dfa_trans (nfa_to_dfa n).start w with
  | some T => T ∈ (nfa_to_dfa n).dfa_accept
  | none => False

/-- Epsilon-closed simulation of the NFA: start from the closed start set
and take `closure(move(·, a))` for each symbol. -/
def nfaSim [LinearOrder σ] (n : NFA σ) (w : List String) : Finset σ :=
  w.foldl (fun S a => epsilon_closure n (move n S a)) (startSet n)

/-- The NFA accepts `w`: the epsilon-closed simulation ends in a set
intersecting the accept set. -/
def nfaAccepts [LinearOrder σ] (n : NFA σ) (w : List String) : Prop :=
  (n.accept_states ∩ nfaSim n w).Nonempty

/-- Well-formedness of an NFA object, as the specification demands of
`build` inputs: the start state is declared, accept states are declared,
and every transition entry has a declared source, declared destinations and
a symbol that is either epsilon or in the alphabet. -/
def wellFormed (n : NFA σ) : Prop :=
  n.start_state ∈ n.states ∧ n.accept_states ⊆ n.states ∧
    ∀ e ∈ n.trans, e.1.1 ∈ n.states ∧ e.2 ⊆ n.states ∧
      (e.1.2 = "" ∨ e.1.2 ∈ n.alphabet)

instance (n : NFA σ) : Decidable (wellFormed n) := by
  unfold wellFormed; infer_instance

/-- The loop of `NFA.__init__` over the supplied transition entries:
`self.transitions[(s, sym)] |= set(dests)` unions into a defaultdict, so a
missing key starts from the empty set. -/
def buildTrans (entries : List ((σ × String) × Finset σ)) :
    List ((σ × String) × Finset σ) :=
  entries.foldl (fun d e => dictSet d e.1 (dictGetD d e.1 ∅ ∪ e.2)) []

/-- `NFA.__init__(states, alphabet, transitions, start_state, accept_states)`:
stores the fields, accumulating the transition entries with union-on-insert.
It performs no validation of any kind. -/
def NFA.build (states : Finset σ) (alphabet : Finset String)
    (entries : List ((σ × String) × Finset σ)) (start : σ)
    (accept : Finset σ) : NFA σ :=
  { states := states, alphabet := alphabet, trans := buildTrans entries,
    start_state := start, accept_states := accept }

/-- The malformedness conditions of the claim, on the raw input tuple of
`NFA.__init__`: undeclared start, undeclared accept state, undeclared
transition source or destination, or a transition symbol that is neither
epsilon nor in the alphabet. -/
def malformedInput (states : Finset σ) (alphabet : Finset String)
    (entries : List ((σ × String) × Finset σ)) (start : σ)
    (accept : Finset σ) : Prop :=
  start ∉ states ∨ (¬ accept ⊆ states) ∨
    ∃ e ∈ entries, e.1.1 ∉ states ∨ (¬ e.2 ⊆ states) ∨
      (e.1.2 ≠ "" ∧ e.1.2 ∉ alphabet)

instance (states : Finset σ) (alphabet : Finset String)
    (entries : List ((σ × String) × Finset σ)) (start : σ) (accept : Finset σ) :
    Decidable (malformedInput states alphabet entries start accept) := by
  unfold malformedInput; infer_instance

end NfaToDfa

namespace NfaToDfa

/-- Python `s.strip()` on the character list of a string. -/
def charTrim (l : List Char) : List Char :=
  ((l.dropWhile Char.isWhitespace).reverse.dropWhile Char.isWhitespace).reverse

/-- Python `s.split(c)` for a one-character separator, on character lists. -/
def splitOnChar (c : Char) : List Char → List (List Char)
  | [] => [[]]
  | x :: xs =>
      if x = c then [] :: splitOnChar c xs
      else
        match splitOnChar c xs with
        | [] => [[x]]
        | h :: t => (x :: h) :: t

/-- Python `s.split('->')`, on character lists. -/
def splitArrow : List Char → List (List Char)
  | [] => [[]]
  | '-' :: '>' :: xs => [] :: splitArrow xs
  | x :: xs =>
      match splitArrow xs with
      | [] => [[x]]
      | h :: t => (x :: h) :: t

/-- Python `s.split(c, 1)[1]`: everything after the first occurrence of the
separator (the parser only applies it to lines that contain one). -/
def afterChar (c : Char) : List Char → List Char
  | [] => []
  | x :: xs => if x = c then xs else afterChar c xs

/-- Comma-split a section payload and trim each piece, modelling
`(x.strip() for x in payload.split(','))`. -/
def commaFields (payload : List Char) : List (List Char) :=
  (splitOnChar ',' payload).map charTrim

/-- Accumulator of `NFA.parse_from_text`: the five collected components and
whether the `Transitions:` section has been entered. -/
structure ParseAcc where
  states : Finset String
  alphabet : Finset String
  transitions : List ((String × String) × Finset String)
  start : Option String
  accept : Finset String
  inTrans : Bool

/-- One line of `NFA.parse_from_text` (lines handled as character lists):
blank and `#` lines are skipped, the five section keywords are recognised
in order, and inside the transitions section a line
`source,symbol->dest1,dest2,...` is stored by dictionary assignment
(overwriting any earlier entry with the same key).  A transition line that
does not split into exactly one `->` and exactly two left-hand fields
raises in Python; that is modelled as `none`. -/
def parseLine (acc : ParseAcc) (raw : List Char) : Option ParseAcc :=
  let line := charTrim raw
  if line = [] ∨ "#".data.isPrefixOf line then some acc
  else if ("States:").data.isPrefixOf line then
    some { acc with states := ((commaFields (afterChar ':' line)).map String.mk).toFinset }
  else if ("Alphabet:").data.isPrefixOf line then
    some { acc with alphabet := ((commaFields (afterChar ':' line)).map String.mk).toFinset }
  else if ("Start:").data.isPrefixOf line then
    some { acc with start := some (String.mk (charTrim (afterChar ':' line))) }
  else if ("Accept:").data.isPrefixOf line then
    some { acc with accept := ((commaFields (afterChar ':' line)).map String.mk).toFinset }
  else if ("Transitions:").data.isPrefixOf line then
    some { acc with inTrans := true }
  else if acc.inTrans then
    match splitArrow line with
    | [left, right] =>
        match (splitOnChar ',' left).map charTrim with
        | [s, sym] =>
            let dests := (((splitOnChar ',' right).map charTrim).filter
              (fun x => x ≠ [])).map String.mk
            some { acc with
              transitions := dictSet acc.transitions
                (String.mk s, String.mk sym) dests.toFinset }
        | _ => none
    | _ => none
  else some acc

/-- `NFA.parse_from_text(text)`: fold `parseLine` over the trimmed lines
(split at newline characters) and hand the collected tuple to
`NFA.__init__`.  A text without a `Start:` line leaves Python's
`start = None` placeholder in the object; since the model's states are
plain strings this degenerate outcome is modelled as `none`. -/
def parse_from_text (text : String) : Option (NFA String) := do
  let acc ← (splitOnChar '\n' (charTrim text.data)).foldlM parseLine
    ⟨∅, ∅, [], none, ∅, false⟩
  let st ← acc.start
  pure (NFA.build acc.states acc.alphabet acc.transitions st acc.accept)

end NfaToDfa

namespace NfaToDfa

variable {σ : Type} [DecidableEq σ]

/-- Python's non-mutating dictionary read `d.get(k, v₀)` in state-passing
form: the value read together with the dictionary after the call. -/
def dgetM {κ ν : Type} [DecidableEq κ] (d : List (κ × ν)) (k : κ) (v₀ : ν) :
    ν × List (κ × ν) :=
  (dictGetD d k v₀, d)

/-- `epsilon_closure` with every dictionary access state-passed: each
iteration reads `nfa.transitions.get((s, ''), [])` through `dgetM` and
threads the possibly-updated automaton into the next iteration. -/
def closureAuxT [LinearOrder σ] (n : NFA σ) : Nat → List σ → Finset σ →
    (Finset σ × List σ) × NFA σ
  | 0, st, c => ((c, st), n)
  | _ + 1, [], c => ((c, []), n)
  | fuel + 1, s :: st, c =>
      let g := dgetM n.trans (s, "") ∅
      let n' := { n with trans := g.2 }
      let p := processDests (enum g.1) (c, st)
      closureAuxT n' fuel p.2 p.1

/-- State-passing `epsilon_closure`: result set plus the automaton after
the call. -/
def epsilon_closureT [LinearOrder σ] (n : NFA σ) (S : Finset σ) :
    Finset σ × NFA σ :=
  ((closureAuxT n (S.card + (allDests n).card) (enum S) S).1.1,
    (closureAuxT n (S.card + (allDests n).card) (enum S) S).2)

/-- State-passing `move`: the union loop with each read through `dgetM`,
threading the automaton. -/
def moveT [LinearOrder σ] (n : NFA σ) (S : Finset σ) (sym : String) :
    Finset σ × NFA σ :=
  (enum S).foldl
    (fun acc s =>
      let g := dgetM acc.2.trans (s, sym) ∅
      (acc.1 ∪ g.1, { acc.2 with trans := g.2 }))
    (∅, n)

/-- State-passing inner symbol loop of `nfa_to_dfa`: `move` and
`epsilon_closure` are called in state-passing form and the automaton they
return is threaded onward. -/
def processSymsT [LinearOrder σ] : List String → NFA σ → Finset σ →
    DfaBuild σ → DfaBuild σ × NFA σ
  | [], n, _, b => (b, n)
  | sym :: rest, n, curr, b =>
      let m := moveT n curr sym
      let e := epsilon_closureT m.2 m.1
      let nxt := e.1
      let n' := e.2
      let tr := dictSet b.dfa_trans (curr, sym) nxt
      if nxt ∈ b.dfa_states then
        processSymsT rest n' curr { b with dfa_trans := tr }
      else
        processSymsT rest n' curr
          { b with
            dfa_states := insert nxt b.dfa_states,
            dfa_trans := tr,
            dfa_accept := if (n'.accept_states ∩ nxt).Nonempty
              then insert nxt b.dfa_accept else b.dfa_accept,
            queue := b.queue ++ [nxt] }

/-- State-passing worklist loop of `nfa_to_dfa`. -/
def dfaLoopT [LinearOrder σ] : Nat → NFA σ → DfaBuild σ → DfaBuild σ × NFA σ
  | 0, n, b => (b, n)
  | fuel + 1, n, b =>
      match b.queue with
      | [] => (b, n)
      | curr :: rest =>
          let p := processSymsT (enumSym n.alphabet) n curr { b with queue := rest }
          dfaLoopT fuel p.2 p.1

/-- State-passing `nfa_to_dfa`: the built DFA plus the automaton after the
call. -/
def nfa_to_dfaT [LinearOrder σ] (n : NFA σ) : DfaBuild σ × NFA σ :=
  let s := epsilon_closureT n {n.start_state}
  dfaLoopT (2 ^ (bigU s.2).card) s.2
    { dfa_states := {s.1},
      dfa_trans := [],
      dfa_accept := if (s.2.accept_states ∩ s.1).Nonempty then {s.1} else ∅,
      queue := [s.1],
      start := s.1,
      alpha := s.2.alphabet }

/-- Scenario B of the specification: states `{q0,q1,q2}`, empty alphabet,
epsilon transitions `q0 -> q1` and `q1 -> q2`, start `q0`, accept `{q2}`.
State identifiers are the character lists of the names `q0`, `q1`, `q2`. -/
def scenarioB : NFA (List Char) :=
  { states := {"q0".data, "q1".data, "q2".data},
    alphabet := ∅,
    trans := [(("q0".data, ""), {"q1".data}), (("q1".data, ""), {"q2".data})],
    start_state := "q0".data,
    accept_states := {"q2".data} }

/-- A one-state NFA with symbol `a` and no transitions: `Move({q0}, a)` is
empty, exercising the empty-move branch of the construction. -/
def deadEndNfa : NFA (List Char) :=
  { states := {"q0".data},
    alphabet := {"a"},
    trans := [],
    start_state := "q0".data,
    accept_states := ∅ }

/-- Scenario A of the specification: states `{q0,q1,q2}`, alphabet `{a,b}`,
transitions `q0,a->q0,q1`, `q0,b->q0`, `q1,b->q2`, start `q0`, accept
`{q2}`.  Used as a well-formed concrete instance. -/
def scenarioA : NFA (List Char) :=
  { states := {"q0".data, "q1".data, "q2".data},
    alphabet := {"a", "b"},
    trans := [(("q0".data, "a"), {"q0".data, "q1".data}),
      (("q0".data, "b"), {"q0".data}), (("q1".data, "b"), {"q2".data})],
    start_state := "q0".data,
    accept_states := {"q2".data} }

/-- A text with two `Transitions:` lines for the same `(source, symbol)`
pair. -/
def dupText : String :=
  "States: q0,q1,q2\nAlphabet: a\nStart: q0\nAccept: q2\nTransitions:\nq0,a->q1\nq0,a->q2\n"

/-- The union of the destination sets of every supplied entry with the given
key: what `__init__`'s union-on-insert accumulates for that key. -/
def unionValues (entries : List ((σ × String) × Finset σ)) (k : σ × String) :
    Finset σ :=
  entries.foldr (fun e acc => if e.1 = k then e.2 ∪ acc else acc) ∅

theorem mem_enum {α : Type} [LinearOrder α] {S : Finset α} {x : α} :
    x ∈ enum S ↔ x ∈ S := by
  rcases S with ⟨m, hm⟩
  induction m using Quot.inductionOn with
  | h l =>
      show x ∈ List.insertionSort (fun a b => a ≤ b) l ↔ _
      rw [(List.perm_insertionSort (fun a b => a ≤ b) l).mem_iff]
      exact Iff.rfl

theorem length_enum {α : Type} [LinearOrder α] (S : Finset α) :
    (enum S).length = S.card := by
  rcases S with ⟨m, hm⟩
  induction m using Quot.inductionOn with
  | h l =>
      show (List.insertionSort (fun a b => a ≤ b) l).length = _
      rw [(List.perm_insertionSort (fun a b => a ≤ b) l).length_eq]
      rfl

theorem mem_enumSym {S : Finset String} {x : String} :
    x ∈ enumSym S ↔ x ∈ S := by
  rcases S with ⟨m, hm⟩
  induction m using Quot.inductionOn with
  | h l =>
      show x ∈ List.insertionSort (fun a b => a.data ≤ b.data) l ↔ _
      rw [(List.perm_insertionSort (fun a b => a.data ≤ b.data) l).mem_iff]
      exact Iff.rfl

theorem mem_of_dictFind_some {κ ν : Type} [DecidableEq κ] {d : List (κ × ν)}
    {k : κ} {v : ν} (h : dictFind d k = some v) : (k, v) ∈ d := by
  unfold dictFind at h
  cases hf : d.find? (fun e => decide (e.1 = k)) with
  | none => rw [hf] at h; cases h
  | some e =>
      rw [hf] at h
      have hk : e.1 = k := by
        have := List.find?_some hf
        simpa using this
      have hv : e.2 = v := by simpa using h
      have hm := List.mem_of_find?_eq_some hf
      rw [← hk, ← hv, Prod.mk.eta]
      exact hm

theorem dictSet_find_map {κ ν : Type} [DecidableEq κ] (d : List (κ × ν))
    (k k' : κ) (v : ν) :
    (d.map (fun e => if e.1 = k then (k, v) else e)).find?
        (fun e => decide (e.1 = k'))
      = Option.map (fun e => if e.1 = k then (k, v) else e)
          (d.find? (fun e => decide (e.1 = k'))) := by
  rw [List.find?_map]
  have hp : ((fun e => decide (e.1 = k')) ∘ fun e : κ × ν => if e.1 = k then (k, v) else e)
      = (fun e : κ × ν => decide (e.1 = k')) := by
    funext e
    simp only [Function.comp_apply]
    by_cases h : e.1 = k
    · simp [h]
    · simp [h]
  rw [hp]

theorem dictFind_dictSet_self {κ ν : Type} [DecidableEq κ] (d : List (κ × ν))
    (k : κ) (v : ν) : dictFind (dictSet d k v) k = some v := by
  unfold dictFind dictSet
  split
  · rename_i hsome
    rw [dictSet_find_map]
    cases hf : d.find? (fun e => decide (e.1 = k)) with
    | none => rw [hf] at hsome; cases hsome
    | some e =>
        have hk : e.1 = k := by
          have := List.find?_some hf
          simpa using this
        simp [hk]
  · rename_i hnone
    have h0 : d.find? (fun e => decide (e.1 = k)) = none :=
      Option.not_isSome_iff_eq_none.mp hnone
    rw [List.find?_append, h0]
    simp [List.find?_cons]

theorem dictFind_dictSet_of_ne {κ ν : Type} [DecidableEq κ] (d : List (κ × ν))
    {k k' : κ} (v : ν) (hne : k' ≠ k) :
    dictFind (dictSet d k v) k' = dictFind d k' := by
  unfold dictFind dictSet
  split
  · rw [dictSet_find_map]
    cases hf : d.find? (fun e => decide (e.1 = k')) with
    | none => simp
    | some e =>
        have hk : e.1 = k' := by
          have := List.find?_some hf
          simpa using this
        have hek : e.1 ≠ k := by rw [hk]; exact hne
        simp [hek]
  · rw [List.find?_append]
    have h1 : ([(k, v)]).find? (fun e => decide (e.1 = k')) = none := by
      simp [List.find?_cons, Ne.symm hne]
    cases hf : d.find? (fun e => decide (e.1 = k')) <;> simp [h1]

theorem mem_dictSet_cases {κ ν : Type} [DecidableEq κ] {d : List (κ × ν)}
    {k : κ} {v : ν} {e : κ × ν} (he : e ∈ dictSet d k v) :
    e = (k, v) ∨ (e ∈ d ∧ e.1 ≠ k) := by
  unfold dictSet at he
  split at he
  · rcases List.mem_map.mp he with ⟨e₀, he₀, hfe⟩
    by_cases h : e₀.1 = k
    · simp only [h, if_true] at hfe
      exact Or.inl hfe.symm
    · simp only [h, if_false] at hfe
      exact Or.inr ⟨hfe ▸ he₀, hfe ▸ h⟩
  · rename_i hnone
    have h0 : d.find? (fun e => decide (e.1 = k)) = none :=
      Option.not_isSome_iff_eq_none.mp hnone
    rcases List.mem_append.mp he with h | h
    · refine Or.inr ⟨h, ?_⟩
      have := List.find?_eq_none.mp h0 e h
      simpa using this
    · exact Or.inl (by simpa using h)

theorem keysOf_dictSet {κ ν : Type} [DecidableEq κ] (d : List (κ × ν))
    (k : κ) (v : ν) :
    keysOf (dictSet d k v) =
      if (d.find? (fun e => decide (e.1 = k))).isSome then keysOf d
      else keysOf d ++ [k] := by
  unfold dictSet keysOf
  split
  · rw [List.map_map]
    refine List.map_congr_left ?_
    intro e _
    simp only [Function.comp_apply]
    by_cases h : e.1 = k
    · simp [h]
    · simp [h]
  · simp

theorem keysOf_dictSet_nodup {κ ν : Type} [DecidableEq κ] {d : List (κ × ν)}
    (k : κ) (v : ν) (hd : (keysOf d).Nodup) :
    (keysOf (dictSet d k v)).Nodup := by
  rw [keysOf_dictSet]
  split
  · exact hd
  · rename_i hnone
    have h0 : d.find? (fun e => decide (e.1 = k)) = none :=
      Option.not_isSome_iff_eq_none.mp hnone
    refine List.Nodup.append hd (List.nodup_singleton k) ?_
    rw [List.disjoint_singleton]
    intro hk
    rcases List.mem_map.mp hk with ⟨e, he, hek⟩
    have := List.find?_eq_none.mp h0 e he
    simp [hek] at this

theorem hasKey_dictSet_self {κ ν : Type} [DecidableEq κ] (d : List (κ × ν))
    (k : κ) (v : ν) : hasKey (dictSet d k v) k := by
  unfold hasKey
  rw [dictFind_dictSet_self]
  rfl

theorem hasKey_dictSet_mono {κ ν : Type} [DecidableEq κ] {d : List (κ × ν)}
    {k' : κ} (k : κ) (v : ν) (h : hasKey d k') : hasKey (dictSet d k v) k' := by
  by_cases hk : k' = k
  · subst hk; exact hasKey_dictSet_self d k' v
  · unfold hasKey at h ⊢
    rwa [dictFind_dictSet_of_ne d v hk]

theorem hasKey_iff_mem_keysOf {κ ν : Type} [DecidableEq κ] {d : List (κ × ν)}
    {k : κ} : hasKey d k ↔ k ∈ keysOf d := by
  unfold hasKey dictFind keysOf
  constructor
  · intro h
    cases hf : d.find? (fun e => decide (e.1 = k)) with
    | none => rw [hf] at h; cases h
    | some e =>
        have hk : e.1 = k := by
          have := List.find?_some hf
          simpa using this
        exact List.mem_map.mpr ⟨e, List.mem_of_find?_eq_some hf, hk⟩
  · intro h
    rcases List.mem_map.mp h with ⟨e, he, hek⟩
    cases hf : d.find? (fun e => decide (e.1 = k)) with
    | none =>
        have := List.find?_eq_none.mp hf e he
        simp [hek] at this
    | some e' => simp [hf]


theorem mem_foldr_union {d : List ((σ × String) × Finset σ)}
    {e : (σ × String) × Finset σ} (he : e ∈ d) :
    e.2 ⊆ d.foldr (fun e acc => e.2 ∪ acc) ∅ := by
  induction d with
  | nil => cases he
  | cons hd tl ih =>
      rcases List.mem_cons.mp he with h | h
      · subst h; exact Finset.subset_union_left
      · exact (ih h).trans Finset.subset_union_right

theorem get_subset_allDests (n : NFA σ) (s : σ) (sym : String) :
    n.get s sym ⊆ allDests n := by
  unfold NFA.get dictGetD dictFind allDests
  cases hf : n.trans.find? (fun e => decide (e.1 = (s, sym))) with
  | none => simp
  | some e =>
      simp only [Option.map_some', Option.getD_some]
      exact mem_foldr_union (List.mem_of_find?_eq_some hf)

theorem mem_move {n : NFA σ} {S : Finset σ} {sym : String} {x : σ} :
    x ∈ move n S sym ↔ ∃ s ∈ S, x ∈ n.get s sym := by
  simp [move]

theorem move_subset_allDests (n : NFA σ) (S : Finset σ) (sym : String) :
    move n S sym ⊆ allDests n := by
  intro x hx
  rcases mem_move.mp hx with ⟨s, _, hs⟩
  exact get_subset_allDests n s sym hs

theorem pd_closure_subset (l : List σ) (c : Finset σ) (st : List σ) :
    c ⊆ (processDests l (c, st)).1 := by
  induction l generalizing c st with
  | nil => exact fun x hx => hx
  | cons nxt rest ih =>
      by_cases h : nxt ∈ c
      · simpa [processDests, h] using ih c st
      · simpa [processDests, h] using
          (Finset.subset_insert nxt c).trans (ih (insert nxt c) (nxt :: st))

theorem pd_mem_of_mem_l {l : List σ} (c : Finset σ) (st : List σ) :
    ∀ x ∈ l, x ∈ (processDests l (c, st)).1 := by
  induction l generalizing c st with
  | nil => intro x hx; cases hx
  | cons nxt rest ih =>
      intro x hx
      rcases List.mem_cons.mp hx with h | h
      · subst h
        by_cases hc : x ∈ c
        · simpa [processDests, hc] using pd_closure_subset rest c st hc
        · simpa [processDests, hc] using
            pd_closure_subset rest (insert x c) (x :: st) (Finset.mem_insert_self x c)
      · by_cases hc : nxt ∈ c
        · simpa [processDests, hc] using ih c st x h
        · simpa [processDests, hc] using ih (insert nxt c) (nxt :: st) x h

theorem pd_closure_cases {l : List σ} {c : Finset σ} {st : List σ} :
    ∀ x ∈ (processDests l (c, st)).1, x ∈ c ∨ x ∈ l := by
  induction l generalizing c st with
  | nil => intro x hx; exact Or.inl hx
  | cons nxt rest ih =>
      intro x hx
      by_cases hc : nxt ∈ c
      · rcases ih x (by simpa [processDests, hc] using hx) with h | h
        · exact Or.inl h
        · exact Or.inr (List.mem_cons_of_mem nxt h)
      · rcases ih x (by simpa [processDests, hc] using hx) with h | h
        · rcases Finset.mem_insert.mp h with h | h
          · exact Or.inr (h ▸ List.mem_cons_self nxt rest)
          · exact Or.inl h
        · exact Or.inr (List.mem_cons_of_mem nxt h)

theorem pd_stack_old {l : List σ} {c : Finset σ} {st : List σ} :
    ∀ x ∈ st, x ∈ (processDests l (c, st)).2 := by
  induction l generalizing c st with
  | nil => intro x hx; exact hx
  | cons nxt rest ih =>
      intro x hx
      by_cases hc : nxt ∈ c
      · simpa [processDests, hc] using ih x hx
      · simpa [processDests, hc] using ih x (List.mem_cons_of_mem nxt hx)

theorem pd_stack_cases {l : List σ} {c : Finset σ} {st : List σ} :
    ∀ x ∈ (processDests l (c, st)).2, x ∈ st ∨ x ∈ l := by
  induction l generalizing c st with
  | nil => intro x hx; exact Or.inl hx
  | cons nxt rest ih =>
      intro x hx
      by_cases hc : nxt ∈ c
      · rcases ih x (by simpa [processDests, hc] using hx) with h | h
        · exact Or.inl h
        · exact Or.inr (List.mem_cons_of_mem nxt h)
      · rcases ih x (by simpa [processDests, hc] using hx) with h | h
        · rcases List.mem_cons.mp h with h | h
          · exact Or.inr (h ▸ List.mem_cons_self nxt rest)
          · exact Or.inl h
        · exact Or.inr (List.mem_cons_of_mem nxt h)

theorem pd_new_in_stack {l : List σ} {c : Finset σ} {st : List σ} :
    ∀ x ∈ (processDests l (c, st)).1, x ∈ c ∨ x ∈ (processDests l (c, st)).2 := by
  induction l generalizing c st with
  | nil => intro x hx; exact Or.inl hx
  | cons nxt rest ih =>
      intro x hx
      by_cases hc : nxt ∈ c
      · simpa [processDests, hc] using ih x (by simpa [processDests, hc] using hx)
      · rcases ih x (by simpa [processDests, hc] using hx) with h | h
        · rcases Finset.mem_insert.mp h with h | h
          · subst h
            refine Or.inr ?_
            have hmem : x ∈ (processDests rest (insert x c, x :: st)).2 :=
              pd_stack_old x (List.mem_cons_self x st)
            simpa [processDests, hc] using hmem
          · exact Or.inl h
        · exact Or.inr (by simpa [processDests, hc] using h)

theorem pd_stack_closure {l : List σ} {c : Finset σ} {st : List σ}
    (hst : ∀ x ∈ st, x ∈ c) :
    ∀ x ∈ (processDests l (c, st)).2, x ∈ (processDests l (c, st)).1 := by
  induction l generalizing c st with
  | nil => intro x hx; exact hst x hx
  | cons nxt rest ih =>
      intro x hx
      by_cases hc : nxt ∈ c
      · simpa [processDests, hc] using
          ih hst x (by simpa [processDests, hc] using hx)
      · have hst' : ∀ y ∈ nxt :: st, y ∈ insert nxt c := by
          intro y hy
          rcases List.mem_cons.mp hy with h | h
          · exact h ▸ Finset.mem_insert_self nxt c
          · exact Finset.mem_insert_of_mem (hst y h)
        simpa [processDests, hc] using
          ih hst' x (by simpa [processDests, hc] using hx)

theorem pd_balance (l : List σ) (c : Finset σ) (st : List σ) :
    (processDests l (c, st)).2.length + c.card
      = st.length + (processDests l (c, st)).1.card := by
  induction l generalizing c st with
  | nil => simp [processDests, Nat.add_comm]
  | cons nxt rest ih =>
      by_cases hc : nxt ∈ c
      · simpa [processDests, hc] using ih c st
      · have := ih (insert nxt c) (nxt :: st)
        simp only [processDests, hc, if_false]
        rw [Finset.card_insert_of_not_mem hc] at this
        simp only [List.length_cons] at this
        omega

/-- Main invariant induction for the `epsilon_closure` worklist loop: with
enough fuel the stack empties, and the final closure contains the seed, is
contained in the epsilon-reachable set, and is closed under epsilon steps. -/
theorem closureAux_spec [LinearOrder σ] (n : NFA σ) (S₀ : Finset σ) :
    ∀ (fuel : Nat) (st : List σ) (c : Finset σ),
      (∀ x ∈ S₀, x ∈ c) →
      (∀ x ∈ c, epsReach n S₀ x) →
      (∀ x ∈ st, x ∈ c) →
      (∀ x ∈ c, x ∉ st → ∀ y, epsStep n x y → y ∈ c) →
      (∀ x ∈ c, x ∈ S₀ ∪ allDests n) →
      st.length + ((S₀ ∪ allDests n) \ c).card ≤ fuel →
      (closureAux n fuel st c).2 = [] ∧
      (∀ x ∈ S₀, x ∈ (closureAux n fuel st c).1) ∧
      (∀ x ∈ (closureAux n fuel st c).1, epsReach n S₀ x) ∧
      (∀ x ∈ (closureAux n fuel st c).1, ∀ y, epsStep n x y →
        y ∈ (closureAux n fuel st c).1) := by
  intro fuel
  induction fuel with
  | zero =>
      intro st c h1 h2 _ h4 _ hfuel
      have hst : st = [] := List.length_eq_zero.mp (by omega)
      subst hst
      simp only [closureAux]
      exact ⟨trivial, h1, h2, fun x hx y hy => h4 x hx (by simp) y hy⟩
  | succ fuel ih =>
      intro st c h1 h2 h3 h4 h5 hfuel
      cases st with
      | nil =>
          simp only [closureAux]
          exact ⟨trivial, h1, h2, fun x hx y hy => h4 x hx (by simp) y hy⟩
      | cons s tail =>
          have hrw : closureAux n (fuel + 1) (s :: tail) c =
              closureAux n fuel
                (processDests (enum (n.get s "")) (c, tail)).2
                (processDests (enum (n.get s "")) (c, tail)).1 := by
            simp only [closureAux]
          rw [hrw]
          set dl := enum (n.get s "") with hdl
          set p := processDests dl (c, tail) with hp
          have hc_sub : c ⊆ p.1 := pd_closure_subset dl c tail
          have h1' : ∀ x ∈ S₀, x ∈ p.1 := fun x hx => hc_sub (h1 x hx)
          have h2' : ∀ x ∈ p.1, epsReach n S₀ x := by
            intro x hx
            rcases pd_closure_cases x hx with h | h
            · exact h2 x h
            · have hs : s ∈ c := h3 s (List.mem_cons_self s tail)
              rcases h2 s hs with ⟨t, ht, hpath⟩
              exact ⟨t, ht, hpath.tail (mem_enum.mp h)⟩
          have h3' : ∀ x ∈ p.2, x ∈ p.1 :=
            pd_stack_closure (fun x hx => h3 x (List.mem_cons_of_mem s hx))
          have h4' : ∀ x ∈ p.1, x ∉ p.2 → ∀ y, epsStep n x y → y ∈ p.1 := by
            intro x hx hnst y hy
            by_cases hxs : x = s
            · subst hxs
              exact pd_mem_of_mem_l c tail y (mem_enum.mpr hy)
            · have hxc : x ∈ c := (pd_new_in_stack x hx).resolve_right hnst
              have hxtail : x ∉ tail := fun h => hnst (pd_stack_old x h)
              have hxst : x ∉ s :: tail := by
                intro h
                rcases List.mem_cons.mp h with h | h
                · exact hxs h
                · exact hxtail h
              exact hc_sub (h4 x hxc hxst y hy)
          have h5' : ∀ x ∈ p.1, x ∈ S₀ ∪ allDests n := by
            intro x hx
            rcases pd_closure_cases x hx with h | h
            · exact h5 x h
            · exact Finset.mem_union_right _ (get_subset_allDests n s "" (mem_enum.mp h))
          have hfuel' : p.2.length + ((S₀ ∪ allDests n) \ p.1).card ≤ fuel := by
            have hcU : c ⊆ S₀ ∪ allDests n := fun x hx => h5 x hx
            have hpU : p.1 ⊆ S₀ ∪ allDests n := fun x hx => h5' x hx
            have hb := pd_balance dl c tail
            rw [← hp] at hb
            have e1 : ((S₀ ∪ allDests n) \ c).card = (S₀ ∪ allDests n).card - c.card :=
              Finset.card_sdiff hcU
            have e2 : ((S₀ ∪ allDests n) \ p.1).card = (S₀ ∪ allDests n).card - p.1.card :=
              Finset.card_sdiff hpU
            have l1 : c.card ≤ p.1.card := Finset.card_le_card hc_sub
            have l2 : p.1.card ≤ (S₀ ∪ allDests n).card := Finset.card_le_card hpU
            simp only [List.length_cons] at hfuel
            omega
          exact ih p.2 p.1 h1' h2' h3' h4' h5' hfuel'

/-- The closure set computed by `epsilon_closure` is exactly the set of
states epsilon-reachable from the input set. -/
theorem mem_epsilon_closure [LinearOrder σ] (n : NFA σ) (S : Finset σ) (x : σ) :
    x ∈ epsilon_closure n S ↔ epsReach n S x := by
  have hspec := closureAux_spec n S (S.card + (allDests n).card) (enum S) S
    (fun x hx => hx)
    (fun x hx => ⟨x, hx, Relation.ReflTransGen.refl⟩)
    (fun x hx => mem_enum.mp hx)
    (fun x hx hnst => absurd (mem_enum.mpr hx) hnst)
    (fun x hx => Finset.mem_union_left _ hx)
    (by
      have h1 : (enum S).length = S.card := length_enum S
      have h2 : ((S ∪ allDests n) \ S).card ≤ (allDests n).card :=
        Finset.card_le_card (by
          intro y hy
          rcases Finset.mem_sdiff.mp hy with ⟨hy1, hy2⟩
          rcases Finset.mem_union.mp hy1 with h | h
          · exact absurd h hy2
          · exact h)
      omega)
  rcases hspec with ⟨-, hseed, hreach, hclosed⟩
  constructor
  · intro hx
    exact hreach x hx
  · rintro ⟨s, hs, hpath⟩
    induction hpath with
    | refl => exact hseed s hs
    | tail _ hstep ihp => exact hclosed _ ihp _ hstep

/-- The input set is contained in its epsilon closure. -/
theorem subset_epsilon_closure [LinearOrder σ] (n : NFA σ) (S : Finset σ) :
    S ⊆ epsilon_closure n S := by
  intro x hx
  exact (mem_epsilon_closure n S x).mpr ⟨x, hx, Relation.ReflTransGen.refl⟩

/-- Epsilon closure of the empty set is empty. -/
theorem epsilon_closure_empty [LinearOrder σ] (n : NFA σ) :
    epsilon_closure n (∅ : Finset σ) = ∅ := by
  ext x
  simp only [Finset.not_mem_empty, iff_false, mem_epsilon_closure]
  rintro ⟨s, hs, -⟩
  exact absurd hs (Finset.not_mem_empty s)

/-- Everything in the closure is either an input state or a recorded
destination. -/
theorem epsilon_closure_subset_union [LinearOrder σ] (n : NFA σ) (S : Finset σ) :
    epsilon_closure n S ⊆ S ∪ allDests n := by
  intro x hx
  rcases (mem_epsilon_closure n S x).mp hx with ⟨s, hs, hpath⟩
  rcases (Relation.ReflTransGen.cases_tail hpath) with h | ⟨mid, -, hstep⟩
  · exact Finset.mem_union_left _ (h ▸ hs)
  · exact Finset.mem_union_right _ (get_subset_allDests n mid "" hstep)

/-- Claim C7: for every NFA and every set of states `S`, `epsilon_closure`
is idempotent: `epsilon_closure(nfa, epsilon_closure(nfa, S))` equals
`epsilon_closure(nfa, S)`. -/
theorem epsilon_closure_idem [LinearOrder σ] (n : NFA σ) (S : Finset σ) :
    epsilon_closure n (epsilon_closure n S) = epsilon_closure n S := by
  ext x
  simp only [mem_epsilon_closure]
  constructor
  · rintro ⟨s, hs, hpath⟩
    rcases (mem_epsilon_closure n S s).mp hs with ⟨t, ht, hpath₀⟩
    exact ⟨t, ht, hpath₀.trans hpath⟩
  · rintro ⟨s, hs, hpath⟩
    exact ⟨s, subset_epsilon_closure n S hs, hpath⟩

/-- The DFA start set only contains the NFA start state and recorded
destinations. -/
theorem startSet_subset_bigU [LinearOrder σ] (n : NFA σ) :
    startSet n ⊆ bigU n := by
  intro x hx
  have := epsilon_closure_subset_union n {n.start_state} hx
  rcases Finset.mem_union.mp this with h | h
  · rw [Finset.mem_singleton] at h
    exact h ▸ Finset.mem_insert_self _ _
  · exact Finset.mem_insert_of_mem h

/-- A closed move set only contains recorded destinations. -/
theorem closure_move_subset_bigU [LinearOrder σ] (n : NFA σ) (T : Finset σ)
    (a : String) : epsilon_closure n (move n T a) ⊆ bigU n := by
  intro x hx
  have := epsilon_closure_subset_union n (move n T a) hx
  rcases Finset.mem_union.mp this with h | h
  · exact Finset.mem_insert_of_mem (move_subset_allDests n T a h)
  · exact Finset.mem_insert_of_mem h

theorem stepKeep_states [LinearOrder σ] (n : NFA σ) (curr : Finset σ)
    (sym : String) (b : DfaBuild σ) :
    (stepKeep n curr sym b).dfa_states = b.dfa_states := rfl

theorem stepKeep_trans [LinearOrder σ] (n : NFA σ) (curr : Finset σ)
    (sym : String) (b : DfaBuild σ) :
    (stepKeep n curr sym b).dfa_trans
      = dictSet b.dfa_trans (curr, sym) (epsilon_closure n (move n curr sym)) := rfl

theorem stepKeep_accept [LinearOrder σ] (n : NFA σ) (curr : Finset σ)
    (sym : String) (b : DfaBuild σ) :
    (stepKeep n curr sym b).dfa_accept = b.dfa_accept := rfl

theorem stepKeep_queue [LinearOrder σ] (n : NFA σ) (curr : Finset σ)
    (sym : String) (b : DfaBuild σ) :
    (stepKeep n curr sym b).queue = b.queue := rfl

theorem stepNew_states [LinearOrder σ] (n : NFA σ) (curr : Finset σ)
    (sym : String) (b : DfaBuild σ) :
    (stepNew n curr sym b).dfa_states
      = insert (epsilon_closure n (move n curr sym)) b.dfa_states := rfl

theorem stepNew_trans [LinearOrder σ] (n : NFA σ) (curr : Finset σ)
    (sym : String) (b : DfaBuild σ) :
    (stepNew n curr sym b).dfa_trans
      = dictSet b.dfa_trans (curr, sym) (epsilon_closure n (move n curr sym)) := rfl

theorem stepNew_accept [LinearOrder σ] (n : NFA σ) (curr : Finset σ)
    (sym : String) (b : DfaBuild σ) :
    (stepNew n curr sym b).dfa_accept
      = if (n.accept_states ∩ epsilon_closure n (move n curr sym)).Nonempty
        then insert (epsilon_closure n (move n curr sym)) b.dfa_accept
        else b.dfa_accept := rfl

theorem stepNew_queue [LinearOrder σ] (n : NFA σ) (curr : Finset σ)
    (sym : String) (b : DfaBuild σ) :
    (stepNew n curr sym b).queue
      = b.queue ++ [epsilon_closure n (move n curr sym)] := rfl

theorem ps_fields [LinearOrder σ] (n : NFA σ) (curr : Finset σ) :
    ∀ (syms : List String) (b : DfaBuild σ),
      (processSyms n curr syms b).start = b.start ∧
      (processSyms n curr syms b).alpha = b.alpha := by
  intro syms
  induction syms with
  | nil => intro b; exact ⟨rfl, rfl⟩
  | cons sym rest ih =>
      intro b
      simp only [processSyms]
      split
      · exact ih (stepKeep n curr sym b)
      · exact ih (stepNew n curr sym b)

theorem ps_states_mono [LinearOrder σ] (n : NFA σ) (curr : Finset σ) :
    ∀ (syms : List String) (b : DfaBuild σ),
      b.dfa_states ⊆ (processSyms n curr syms b).dfa_states := by
  intro syms
  induction syms with
  | nil => intro b x hx; exact hx
  | cons sym rest ih =>
      intro b
      simp only [processSyms]
      split
      · exact ih (stepKeep n curr sym b)
      · exact (Finset.subset_insert _ _).trans (ih (stepNew n curr sym b))

theorem ps_queue_mono [LinearOrder σ] (n : NFA σ) (curr : Finset σ) :
    ∀ (syms : List String) (b : DfaBuild σ),
      ∀ T ∈ b.queue, T ∈ (processSyms n curr syms b).queue := by
  intro syms
  induction syms with
  | nil => intro b T hT; exact hT
  | cons sym rest ih =>
      intro b T hT
      simp only [processSyms]
      split
      · exact ih (stepKeep n curr sym b) T hT
      · exact ih (stepNew n curr sym b) T (List.mem_append_left _ hT)

theorem ps_hasKey_mono [LinearOrder σ] (n : NFA σ) (curr : Finset σ) :
    ∀ (syms : List String) (b : DfaBuild σ) (kk : Finset σ × String),
      hasKey b.dfa_trans kk → hasKey (processSyms n curr syms b).dfa_trans kk := by
  intro syms
  induction syms with
  | nil => intro b kk h; exact h
  | cons sym rest ih =>
      intro b kk h
      simp only [processSyms]
      split
      · exact ih (stepKeep n curr sym b) kk (hasKey_dictSet_mono _ _ h)
      · exact ih (stepNew n curr sym b) kk (hasKey_dictSet_mono _ _ h)

theorem ps_balance [LinearOrder σ] (n : NFA σ) (curr : Finset σ) :
    ∀ (syms : List String) (b : DfaBuild σ),
      (processSyms n curr syms b).queue.length + b.dfa_states.card =
        b.queue.length + (processSyms n curr syms b).dfa_states.card := by
  intro syms
  induction syms with
  | nil => intro b; exact Nat.add_comm _ _ ▸ rfl
  | cons sym rest ih =>
      intro b
      simp only [processSyms]
      split
      · exact ih (stepKeep n curr sym b)
      · rename_i h
        have hb := ih (stepNew n curr sym b)
        rw [stepNew_states, stepNew_queue, Finset.card_insert_of_not_mem h,
          List.length_append, List.length_singleton] at hb
        omega

theorem ps_invcore [LinearOrder σ] (n : NFA σ) (curr : Finset σ) :
    ∀ (syms : List String) (b : DfaBuild σ),
      curr ∈ b.dfa_states → (∀ a ∈ syms, a ∈ n.alphabet) → InvCore n b →
      InvCore n (processSyms n curr syms b) := by
  intro syms
  induction syms with
  | nil => intro b _ _ hb; exact hb
  | cons sym rest ih =>
      intro b hcurr hsyms hb
      have hsym : sym ∈ n.alphabet := hsyms sym (List.mem_cons_self sym rest)
      have hrest : ∀ a ∈ rest, a ∈ n.alphabet :=
        fun a ha => hsyms a (List.mem_cons_of_mem sym ha)
      simp only [processSyms]
      split
      · rename_i h
        refine ih (stepKeep n curr sym b) hcurr hrest ?_
        refine ⟨hb.hstart, ?_, hb.haccept, hb.hqueue, ?_, hb.hbound⟩
        · intro e he
          rw [stepKeep_trans] at he
          rcases mem_dictSet_cases he with heq | ⟨hmem, -⟩
          · subst heq
            exact ⟨rfl, h, hcurr, hsym⟩
          · exact hb.htrans e hmem
        · rw [stepKeep_trans]
          exact keysOf_dictSet_nodup _ _ hb.hkeys
      · rename_i h
        refine ih (stepNew n curr sym b)
          (by rw [stepNew_states]; exact Finset.mem_insert_of_mem hcurr) hrest ?_
        refine ⟨?_, ?_, ?_, ?_, ?_, ?_⟩
        · rw [stepNew_states]
          exact Finset.mem_insert_of_mem hb.hstart
        · intro e he
          rw [stepNew_trans] at he
          rw [stepNew_states]
          rcases mem_dictSet_cases he with heq | ⟨hmem, -⟩
          · subst heq
            exact ⟨rfl, Finset.mem_insert_self _ _,
              Finset.mem_insert_of_mem hcurr, hsym⟩
          · rcases hb.htrans e hmem with ⟨h1, h2, h3, h4⟩
            exact ⟨h1, Finset.mem_insert_of_mem h2, Finset.mem_insert_of_mem h3, h4⟩
        · intro T
          rw [stepNew_accept, stepNew_states]
          by_cases hP : (n.accept_states ∩ epsilon_closure n (move n curr sym)).Nonempty
          · rw [if_pos hP]
            constructor
            · intro hT
              rcases Finset.mem_insert.mp hT with hT | hT
              · exact ⟨hT ▸ Finset.mem_insert_self _ _, hT ▸ hP⟩
              · rcases (hb.haccept T).mp hT with ⟨h1, h2⟩
                exact ⟨Finset.mem_insert_of_mem h1, h2⟩
            · rintro ⟨h1, h2⟩
              rcases Finset.mem_insert.mp h1 with hT | hT
              · exact hT ▸ Finset.mem_insert_self _ _
              · exact Finset.mem_insert_of_mem ((hb.haccept T).mpr ⟨hT, h2⟩)
          · rw [if_neg hP]
            constructor
            · intro hT
              rcases (hb.haccept T).mp hT with ⟨h1, h2⟩
              exact ⟨Finset.mem_insert_of_mem h1, h2⟩
            · rintro ⟨h1, h2⟩
              rcases Finset.mem_insert.mp h1 with hT | hT
              · exact absurd (hT ▸ h2) hP
              · exact (hb.haccept T).mpr ⟨hT, h2⟩
        · intro T hT
          rw [stepNew_queue] at hT
          rw [stepNew_states]
          rcases List.mem_append.mp hT with hT | hT
          · exact Finset.mem_insert_of_mem (hb.hqueue T hT)
          · rw [List.mem_singleton] at hT
            exact hT ▸ Finset.mem_insert_self _ _
        · rw [stepNew_trans]
          exact keysOf_dictSet_nodup _ _ hb.hkeys
        · intro T hT
          rw [stepNew_states] at hT
          rcases Finset.mem_insert.mp hT with hT | hT
          · exact hT ▸ closure_move_subset_bigU n curr sym
          · exact hb.hbound T hT

theorem ps_keys [LinearOrder σ] (n : NFA σ) (curr : Finset σ) :
    ∀ (syms : List String) (b : DfaBuild σ),
      (∀ a ∈ n.alphabet, a ∈ syms ∨ hasKey b.dfa_trans (curr, a)) →
      ∀ a ∈ n.alphabet, hasKey (processSyms n curr syms b).dfa_trans (curr, a) := by
  intro syms
  induction syms with
  | nil =>
      intro b h a ha
      rcases h a ha with h | h
      · cases h
      · exact h
  | cons sym rest ih =>
      intro b h a ha
      have hnext : ∀ a ∈ n.alphabet, a ∈ rest ∨
          hasKey (dictSet b.dfa_trans (curr, sym)
            (epsilon_closure n (move n curr sym))) (curr, a) := by
        intro a' ha'
        rcases h a' ha' with hmem | hkey
        · rcases List.mem_cons.mp hmem with heq | hr
          · subst heq
            exact Or.inr (hasKey_dictSet_self _ _ _)
          · exact Or.inl hr
        · exact Or.inr (hasKey_dictSet_mono _ _ hkey)
      simp only [processSyms]
      split
      · exact ih (stepKeep n curr sym b) hnext a ha
      · exact ih (stepNew n curr sym b) hnext a ha

theorem ps_processed [LinearOrder σ] (n : NFA σ) (curr : Finset σ) :
    ∀ (syms : List String) (b : DfaBuild σ),
      (∀ T ∈ b.dfa_states, T ∈ b.queue ∨ T = curr ∨
        ∀ a ∈ n.alphabet, hasKey b.dfa_trans (T, a)) →
      ∀ T ∈ (processSyms n curr syms b).dfa_states,
        T ∈ (processSyms n curr syms b).queue ∨ T = curr ∨
          ∀ a ∈ n.alphabet, hasKey (processSyms n curr syms b).dfa_trans (T, a) := by
  intro syms
  induction syms with
  | nil => intro b h; exact h
  | cons sym rest ih =>
      intro b h
      simp only [processSyms]
      split
      · refine ih (stepKeep n curr sym b) ?_
        intro T hT
        rcases h T hT with h1 | h1 | h1
        · exact Or.inl h1
        · exact Or.inr (Or.inl h1)
        · exact Or.inr (Or.inr (fun a ha =>
            hasKey_dictSet_mono _ _ (h1 a ha)))
      · refine ih (stepNew n curr sym b) ?_
        intro T hT
        rw [stepNew_states] at hT
        rcases Finset.mem_insert.mp hT with hT | hT
        · refine Or.inl ?_
          rw [stepNew_queue, hT]
          exact List.mem_append_right _ (List.mem_singleton_self _)
        · rcases h T hT with h1 | h1 | h1
          · refine Or.inl ?_
            rw [stepNew_queue]
            exact List.mem_append_left _ h1
          · exact Or.inr (Or.inl h1)
          · exact Or.inr (Or.inr (fun a ha =>
              hasKey_dictSet_mono _ _ (h1 a ha)))

theorem states_card_le [LinearOrder σ] {n : NFA σ} {b : DfaBuild σ}
    (h : InvCore n b) : b.dfa_states.card ≤ 2 ^ (bigU n).card := by
  have hsub : b.dfa_states ⊆ (bigU n).powerset :=
    fun T hT => Finset.mem_powerset.mpr (h.hbound T hT)
  calc b.dfa_states.card ≤ (bigU n).powerset.card := Finset.card_le_card hsub
    _ = 2 ^ (bigU n).card := Finset.card_powerset _

theorem dfaLoop_fields [LinearOrder σ] (n : NFA σ) :
    ∀ (fuel : Nat) (b : DfaBuild σ),
      (dfaLoop n fuel b).start = b.start ∧ (dfaLoop n fuel b).alpha = b.alpha := by
  intro fuel
  induction fuel with
  | zero => intro b; exact ⟨rfl, rfl⟩
  | succ fuel ih =>
      intro b
      cases hq : b.queue with
      | nil => simp [dfaLoop, hq]
      | cons curr rest =>
          simp only [dfaLoop, hq]
          have hf := ps_fields n curr (enumSym n.alphabet) { b with queue := rest }
          have := ih (processSyms n curr (enumSym n.alphabet) { b with queue := rest })
          exact ⟨this.1.trans hf.1, this.2.trans hf.2⟩

/-- Main invariant induction for the subset-construction worklist loop:
with enough fuel the queue empties and the invariant holds at the end. -/
theorem dfaLoop_spec [LinearOrder σ] (n : NFA σ) :
    ∀ (fuel : Nat) (b : DfaBuild σ),
      Inv n b →
      b.queue.length + (2 ^ (bigU n).card - b.dfa_states.card) ≤ fuel →
      Inv n (dfaLoop n fuel b) ∧ (dfaLoop n fuel b).queue = [] := by
  intro fuel
  induction fuel with
  | zero =>
      intro b hInv hfuel
      have hq : b.queue = [] := List.length_eq_zero.mp (by omega)
      exact ⟨hInv, hq⟩
  | succ fuel ih =>
      intro b hInv hfuel
      rcases hInv with ⟨hcore, hproc⟩
      cases hq : b.queue with
      | nil =>
          simp only [dfaLoop, hq]
          exact ⟨⟨hcore, hproc⟩, trivial⟩
      | cons curr rest =>
          simp only [dfaLoop, hq]
          have hcurrb : curr ∈ b.dfa_states :=
            hcore.hqueue curr (by rw [hq]; exact List.mem_cons_self curr rest)
          have hcore₁ : InvCore n { b with queue := rest } :=
            ⟨hcore.hstart, hcore.htrans, hcore.haccept,
              fun T hT => hcore.hqueue T (by rw [hq]; exact List.mem_cons_of_mem curr hT),
              hcore.hkeys, hcore.hbound⟩
          have hsyms : ∀ a ∈ enumSym n.alphabet, a ∈ n.alphabet :=
            fun a ha => mem_enumSym.mp ha
          have hcore₂ : InvCore n
              (processSyms n curr (enumSym n.alphabet) { b with queue := rest }) :=
            ps_invcore n curr (enumSym n.alphabet) _ hcurrb hsyms hcore₁
          have hcurrkeys : ∀ a ∈ n.alphabet,
              hasKey (processSyms n curr (enumSym n.alphabet)
                { b with queue := rest }).dfa_trans (curr, a) :=
            ps_keys n curr (enumSym n.alphabet) _
              (fun a ha => Or.inl (mem_enumSym.mpr ha))
          have hproc₂ := ps_processed n curr (enumSym n.alphabet) { b with queue := rest }
            (by
              intro T hT
              rcases hproc T hT with h1 | h1
              · rw [hq] at h1
                rcases List.mem_cons.mp h1 with h2 | h2
                · exact Or.inr (Or.inl h2)
                · exact Or.inl h2
              · exact Or.inr (Or.inr h1))
          have hInv₂ : Inv n
              (processSyms n curr (enumSym n.alphabet) { b with queue := rest }) := by
            refine ⟨hcore₂, ?_⟩
            intro T hT
            rcases hproc₂ T hT with h1 | h1 | h1
            · exact Or.inl h1
            · exact Or.inr (h1 ▸ hcurrkeys)
            · exact Or.inr h1
          have hmeas : (processSyms n curr (enumSym n.alphabet)
                { b with queue := rest }).queue.length +
              (2 ^ (bigU n).card -
                (processSyms n curr (enumSym n.alphabet)
                  { b with queue := rest }).dfa_states.card) ≤ fuel := by
            have hbal := ps_balance n curr (enumSym n.alphabet) { b with queue := rest }
            have hc2 := states_card_le hcore₂
            have hmono := Finset.card_le_card
              (ps_states_mono n curr (enumSym n.alphabet) { b with queue := rest })
            have e1 : ({ b with queue := rest } : DfaBuild σ).dfa_states
              = b.dfa_states := rfl
            have e2 : ({ b with queue := rest } : DfaBuild σ).queue = rest := rfl
            rw [e1, e2] at hbal
            rw [e1] at hmono
            have hlen : b.queue.length = rest.length + 1 := by rw [hq]; rfl
            omega
          exact ih _ hInv₂ hmeas

/-- The invariant holds before the worklist loop starts. -/
theorem Inv_init [LinearOrder σ] (n : NFA σ) : Inv n (initBuild n) := by
  constructor
  · refine ⟨Finset.mem_singleton_self _, ?_, ?_, ?_, List.nodup_nil, ?_⟩
    · intro e he; cases he
    · intro T
      show T ∈ (if (n.accept_states ∩ startSet n).Nonempty
          then {startSet n} else ∅) ↔
        T ∈ ({startSet n} : Finset (Finset σ)) ∧ (n.accept_states ∩ T).Nonempty
      by_cases hP : (n.accept_states ∩ startSet n).Nonempty
      · rw [if_pos hP]
        constructor
        · intro hT
          have h1 := Finset.mem_singleton.mp hT
          exact ⟨hT, h1 ▸ hP⟩
        · rintro ⟨h1, -⟩; exact h1
      · rw [if_neg hP]
        constructor
        · intro hT; cases hT
        · rintro ⟨h1, h2⟩
          have h1 := Finset.mem_singleton.mp h1
          exact absurd (h1 ▸ h2) hP
    · intro T hT
      have h1 := List.mem_singleton.mp hT
      exact h1 ▸ Finset.mem_singleton_self _
    · intro T hT
      have h1 := Finset.mem_singleton.mp hT
      exact h1 ▸ startSet_subset_bigU n
  · intro T hT
    have h1 := Finset.mem_singleton.mp hT
    exact Or.inl (h1 ▸ List.mem_singleton_self _)

/-- The fuel `2 ^ |bigU|` drains the worklist completely, and the loop
invariant holds of the returned build. -/
theorem nfa_to_dfa_spec [LinearOrder σ] (n : NFA σ) :
    Inv n (nfa_to_dfa n) ∧ (nfa_to_dfa n).queue = [] := by
  refine dfaLoop_spec n (2 ^ (bigU n).card) (initBuild n) (Inv_init n) ?_
  have h1 : (initBuild n).queue.length = 1 := rfl
  have h2 : (initBuild n).dfa_states.card = 1 := Finset.card_singleton _
  have h3 : 1 ≤ 2 ^ (bigU n).card := Nat.one_le_pow _ _ (by norm_num)
  omega

/-- The worklist loop of `nfa_to_dfa` terminates: its final queue is empty. -/
theorem nfa_to_dfa_queue_eq_nil [LinearOrder σ] (n : NFA σ) :
    (nfa_to_dfa n).queue = [] := (nfa_to_dfa_spec n).2

/-- The returned start state is the closed start set, and the returned
alphabet is the NFA's. -/
theorem nfa_to_dfa_start [LinearOrder σ] (n : NFA σ) :
    (nfa_to_dfa n).start = startSet n ∧ (nfa_to_dfa n).alpha = n.alphabet :=
  dfaLoop_fields n (2 ^ (bigU n).card) (initBuild n)

/-- Totality of the returned transition dictionary over the discovered
states: every `(T, a)` with `T` discovered and `a` in the alphabet is
mapped, to the closed move set. -/
theorem nfa_to_dfa_total [LinearOrder σ] (n : NFA σ) :
    ∀ T ∈ (nfa_to_dfa n).dfa_states, ∀ a ∈ n.alphabet,
      dictFind (nfa_to_dfa n).dfa_trans (T, a)
        = some (epsilon_closure n (move n T a)) := by
  intro T hT a ha
  rcases nfa_to_dfa_spec n with ⟨⟨hcore, hproc⟩, hq⟩
  have hkey : hasKey (nfa_to_dfa n).dfa_trans (T, a) := by
    rcases hproc T hT with h | h
    · rw [hq] at h; cases h
    · exact h a ha
  unfold hasKey at hkey
  rcases Option.isSome_iff_exists.mp hkey with ⟨v, hv⟩
  have hmem := mem_of_dictFind_some hv
  have hval : v = epsilon_closure n (move n T a) :=
    (hcore.htrans ((T, a), v) hmem).1
  rw [hv, hval]

/-- Every discovered state that carries a transition entry maps into a
discovered state. -/
theorem nfa_to_dfa_closed [LinearOrder σ] (n : NFA σ) :
    ∀ e ∈ (nfa_to_dfa n).dfa_trans, e.2 ∈ (nfa_to_dfa n).dfa_states :=
  fun e he => ((nfa_to_dfa_spec n).1.1.htrans e he).2.1

/-- Running a word of alphabet symbols from a discovered state succeeds and
lands exactly on the epsilon-closed simulation of that word. -/
theorem dfaRun_foldl [LinearOrder σ] (n : NFA σ) :
    ∀ (w : List String) (T : Finset σ), (∀ a ∈ w, a ∈ n.alphabet) →
      T ∈ (nfa_to_dfa n).dfa_states →
      dfaRun (nfa_to_dfa n).dfa_trans T w
          = some (w.foldl (fun S a => epsilon_closure n (move n S a)) T) ∧
        w.foldl (fun S a => epsilon_closure n (move n S a)) T
          ∈ (nfa_to_dfa n).dfa_states := by
  intro w
  induction w with
  | nil => intro T _ hT; exact ⟨rfl, hT⟩
  | cons a w ih =>
      intro T hw hT
      have ha : a ∈ n.alphabet := hw a (List.mem_cons_self a w)
      have hw' : ∀ x ∈ w, x ∈ n.alphabet :=
        fun x hx => hw x (List.mem_cons_of_mem a hx)
      have hfind := nfa_to_dfa_total n T hT a ha
      have hnext : epsilon_closure n (move n T a) ∈ (nfa_to_dfa n).dfa_states :=
        nfa_to_dfa_closed n ((T, a), epsilon_closure n (move n T a))
          (mem_of_dictFind_some hfind)
      have := ih (epsilon_closure n (move n T a)) hw' hnext
      simp only [dfaRun, hfind, List.foldl_cons]
      exact this

theorem buildTrans_foldl_getD (entries : List ((σ × String) × Finset σ)) :
    ∀ (d : List ((σ × String) × Finset σ)) (k : σ × String),
      dictGetD (entries.foldl
          (fun d e => dictSet d e.1 (dictGetD d e.1 ∅ ∪ e.2)) d) k ∅
        = dictGetD d k ∅ ∪ unionValues entries k := by
  induction entries with
  | nil =>
      intro d k
      simp [unionValues]
  | cons e rest ih =>
      intro d k
      rw [List.foldl_cons]
      rw [ih (dictSet d e.1 (dictGetD d e.1 ∅ ∪ e.2)) k]
      by_cases hk : e.1 = k
      · subst hk
        have h1 : dictGetD (dictSet d e.1 (dictGetD d e.1 ∅ ∪ e.2)) e.1 ∅
            = dictGetD d e.1 ∅ ∪ e.2 := by
          unfold dictGetD
          rw [dictFind_dictSet_self]
          rfl
        rw [h1]
        show _ = dictGetD d e.1 ∅ ∪ (if e.1 = e.1 then e.2 ∪ unionValues rest e.1
          else unionValues rest e.1)
        rw [if_pos rfl]
        rw [Finset.union_assoc]
      · have h1 : dictGetD (dictSet d e.1 (dictGetD d e.1 ∅ ∪ e.2)) k ∅
            = dictGetD d k ∅ := by
          unfold dictGetD
          rw [dictFind_dictSet_of_ne d _ (fun h => hk h.symm)]
        rw [h1]
        show _ = dictGetD d k ∅ ∪ (if e.1 = k then e.2 ∪ unionValues rest k
          else unionValues rest k)
        rw [if_neg hk]

/-- The dictionary `__init__` builds maps each key to the union of all
destination sets supplied for that key. -/
theorem buildTrans_getD (entries : List ((σ × String) × Finset σ))
    (k : σ × String) :
    dictGetD (buildTrans entries) k ∅ = unionValues entries k := by
  unfold buildTrans
  rw [buildTrans_foldl_getD]
  simp [dictGetD, dictFind]

theorem foldr_union_subset {d : List ((σ × String) × Finset σ)} {s : Finset σ}
    (h : ∀ e ∈ d, e.2 ⊆ s) :
    d.foldr (fun e acc => e.2 ∪ acc) ∅ ⊆ s := by
  induction d with
  | nil => simp
  | cons e tl ih =>
      simp only [List.foldr_cons]
      refine Finset.union_subset (h e (List.mem_cons_self e tl)) ?_
      exact ih (fun x hx => h x (List.mem_cons_of_mem e hx))

/-- For a well-formed NFA every reachable construction state is a declared
state. -/
theorem bigU_subset_states {n : NFA σ} (hwf : wellFormed n) :
    bigU n ⊆ n.states := by
  unfold bigU
  refine Finset.insert_subset hwf.1 ?_
  unfold allDests
  exact foldr_union_subset (fun e he => (hwf.2.2 e he).2.1)

theorem mem_list_foldr_union {l : List σ} {f : σ → Finset σ} {x : σ} :
    x ∈ l.foldr (fun s r => f s ∪ r) ∅ ↔ ∃ s ∈ l, x ∈ f s := by
  induction l with
  | nil => simp
  | cons s tl ih =>
      simp only [List.foldr_cons, Finset.mem_union, ih, List.mem_cons]
      constructor
      · rintro (h | ⟨t, ht, hx⟩)
        · exact ⟨s, Or.inl rfl, h⟩
        · exact ⟨t, Or.inr ht, hx⟩
      · rintro ⟨t, h | ht, hx⟩
        · exact Or.inl (h ▸ hx)
        · exact Or.inr ⟨t, ht, hx⟩

theorem closureAuxT_eq [LinearOrder σ] (n : NFA σ) :
    ∀ (fuel : Nat) (st : List σ) (c : Finset σ),
      closureAuxT n fuel st c = (closureAux n fuel st c, n) := by
  intro fuel
  induction fuel with
  | zero => intro st c; rfl
  | succ fuel ih =>
      intro st c
      cases st with
      | nil => rfl
      | cons s tail =>
          show closureAuxT n fuel _ _ = _
          rw [ih]
          rfl

theorem epsilon_closureT_eq [LinearOrder σ] (n : NFA σ) (S : Finset σ) :
    epsilon_closureT n S = (epsilon_closure n S, n) := by
  unfold epsilon_closureT epsilon_closure
  rw [closureAuxT_eq]

theorem moveT_foldl [LinearOrder σ] (sym : String) :
    ∀ (l : List σ) (acc : Finset σ) (m : NFA σ),
      l.foldl (fun acc s =>
          ((acc.1 ∪ (dgetM acc.2.trans (s, sym) ∅).1),
            { acc.2 with trans := (dgetM acc.2.trans (s, sym) ∅).2 }))
        (acc, m)
      = (acc ∪ l.foldr (fun s r => dictGetD m.trans (s, sym) ∅ ∪ r) ∅, m) := by
  intro l
  induction l with
  | nil =>
      intro acc m
      simp
  | cons s tl ih =>
      intro acc m
      rw [List.foldl_cons]
      show tl.foldl _ (acc ∪ dictGetD m.trans (s, sym) ∅, m) = _
      rw [ih]
      rw [List.foldr_cons]
      refine Prod.ext ?_ rfl
      show acc ∪ dictGetD m.trans (s, sym) ∅ ∪
          tl.foldr (fun s r => dictGetD m.trans (s, sym) ∅ ∪ r) ∅
        = acc ∪ (dictGetD m.trans (s, sym) ∅ ∪
          tl.foldr (fun s r => dictGetD m.trans (s, sym) ∅ ∪ r) ∅)
      rw [Finset.union_assoc]

theorem moveT_eq [LinearOrder σ] (n : NFA σ) (S : Finset σ) (sym : String) :
    moveT n S sym = (move n S sym, n) := by
  show (enum S).foldl (fun acc s =>
      ((acc.1 ∪ (dgetM acc.2.trans (s, sym) ∅).1),
        { acc.2 with trans := (dgetM acc.2.trans (s, sym) ∅).2 })) (∅, n)
    = (move n S sym, n)
  rw [moveT_foldl]
  refine Prod.ext ?_ rfl
  show (∅ ∪ (enum S).foldr (fun s r => dictGetD n.trans (s, sym) ∅ ∪ r) ∅)
    = move n S sym
  rw [Finset.empty_union]
  ext x
  rw [mem_list_foldr_union, mem_move]
  constructor
  · rintro ⟨s, hs, hx⟩
    exact ⟨s, mem_enum.mp hs, hx⟩
  · rintro ⟨s, hs, hx⟩
    exact ⟨s, mem_enum.mpr hs, hx⟩

theorem processSymsT_eq [LinearOrder σ] :
    ∀ (syms : List String) (n : NFA σ) (curr : Finset σ) (b : DfaBuild σ),
      processSymsT syms n curr b = (processSyms n curr syms b, n) := by
  intro syms
  induction syms with
  | nil => intro n curr b; rfl
  | cons sym rest ih =>
      intro n curr b
      unfold processSymsT
      simp only [moveT_eq, epsilon_closureT_eq]
      unfold processSyms
      split
      · exact ih n curr (stepKeep n curr sym b)
      · exact ih n curr (stepNew n curr sym b)

theorem dfaLoopT_eq [LinearOrder σ] :
    ∀ (fuel : Nat) (n : NFA σ) (b : DfaBuild σ),
      dfaLoopT fuel n b = (dfaLoop n fuel b, n) := by
  intro fuel
  induction fuel with
  | zero => intro n b; rfl
  | succ fuel ih =>
      intro n b
      unfold dfaLoopT
      unfold dfaLoop
      cases hq : b.queue with
      | nil => rfl
      | cons curr rest =>
          simp only [processSymsT_eq]
          exact ih n (processSyms n curr (enumSym n.alphabet) { b with queue := rest })

theorem nfa_to_dfaT_eq [LinearOrder σ] (n : NFA σ) :
    nfa_to_dfaT n = (nfa_to_dfa n, n) := by
  unfold nfa_to_dfaT nfa_to_dfa
  rw [epsilon_closureT_eq]
  rw [dfaLoopT_eq]
  rfl

/-- Claim C1: for every well-formed NFA and every finite sequence of
alphabet symbols, the NFA accepts the sequence (the epsilon-closed
simulation ends in a set intersecting the accept set) if and only if the
DFA returned by `nfa_to_dfa` accepts it (running the sequence through
`dfa_trans` from the DFA start state ends in a member of `dfa_accept`). -/
theorem language_equivalence [LinearOrder σ] (n : NFA σ) (hwf : wellFormed n)
    (w : List String) (hw : ∀ a ∈ w, a ∈ n.alphabet) :
    nfaAccepts n w ↔ dfaAccepts n w := by
  have hstart := (nfa_to_dfa_start n).1
  have hmem : startSet n ∈ (nfa_to_dfa n).dfa_states :=
    (nfa_to_dfa_spec n).1.1.hstart
  have hrun := dfaRun_foldl n w (startSet n) hw hmem
  unfold dfaAccepts
  rw [hstart, hrun.1]
  show nfaAccepts n w ↔ nfaSim n w ∈ (nfa_to_dfa n).dfa_accept
  rw [(nfa_to_dfa_spec n).1.1.haccept (nfaSim n w)]
  unfold nfaAccepts
  constructor
  · intro h
    exact ⟨hrun.2, h⟩
  · rintro ⟨-, h⟩
    exact h

/-- Witness for claim C1: scenario A is well-formed, `ab` is a word over
its alphabet, and the equivalence holds for it. -/
theorem language_equivalence_witness :
    wellFormed scenarioA ∧ (∀ a ∈ ["a", "b"], a ∈ scenarioA.alphabet) ∧
      (nfaAccepts scenarioA ["a", "b"] ↔ dfaAccepts scenarioA ["a", "b"]) :=
  ⟨by decide, by decide,
    language_equivalence scenarioA (by decide) ["a", "b"] (by decide)⟩

/-- Counterexample for claim C2: `NFA.__init__` performs no validation, so
a tuple whose start state `q9` is not among its states still produces an
automaton object (with that dangling start state) instead of failing. -/
theorem build_accepts_malformed :
    malformedInput ({"q0".data} : Finset (List Char)) ∅ [] "q9".data ∅ ∧
      (NFA.build ({"q0".data} : Finset (List Char)) ∅ [] "q9".data ∅).start_state
        = "q9".data ∧
      (NFA.build ({"q0".data} : Finset (List Char)) ∅ [] "q9".data ∅).states
        = {"q0".data} ∧
      (NFA.build ({"q0".data} : Finset (List Char)) ∅ [] "q9".data ∅).start_state
        ∉ (NFA.build ({"q0".data} : Finset (List Char)) ∅ [] "q9".data ∅).states := by
  decide

/-- Claim C2 as amended: construction never fails; for every input tuple,
malformed or not, `NFA.__init__` returns an automaton carrying exactly the
supplied fields, with the transition entries accumulated by
union-on-insert. -/
theorem build_never_fails (states : Finset σ) (alphabet : Finset String)
    (entries : List ((σ × String) × Finset σ)) (start : σ) (accept : Finset σ) :
    (NFA.build states alphabet entries start accept).states = states ∧
      (NFA.build states alphabet entries start accept).alphabet = alphabet ∧
      (NFA.build states alphabet entries start accept).start_state = start ∧
      (NFA.build states alphabet entries start accept).accept_states = accept ∧
      (NFA.build states alphabet entries start accept).trans = buildTrans entries :=
  ⟨rfl, rfl, rfl, rfl, rfl⟩

/-- Counterexample for claim C3: in the one-state NFA `deadEndNfa` the move
set of `({q0}, a)` is empty, yet `nfa_to_dfa` does record a transition for
that pair — to the empty set — and does create the empty-set DFA state. -/
theorem dead_end_records_empty_edge :
    move deadEndNfa {"q0".data} "a" = ∅ ∧
      ({"q0".data} : Finset (List Char)) ∈ (nfa_to_dfa deadEndNfa).dfa_states ∧
      hasKey (nfa_to_dfa deadEndNfa).dfa_trans ({"q0".data}, "a") ∧
      dictFind (nfa_to_dfa deadEndNfa).dfa_trans ({"q0".data}, "a") = some ∅ ∧
      (∅ : Finset (List Char)) ∈ (nfa_to_dfa deadEndNfa).dfa_states := by
  decide

/-- Claim C3 as amended: for every NFA, every discovered DFA state `T` and
every alphabet symbol `a` whose move set is empty, the returned transition
dictionary maps `(T, a)` to the empty set (the closure of the empty move
set), and the empty set is itself a discovered DFA state. -/
theorem empty_move_recorded [LinearOrder σ] (n : NFA σ) (T : Finset σ)
    (a : String) (hT : T ∈ (nfa_to_dfa n).dfa_states) (ha : a ∈ n.alphabet)
    (hm : move n T a = ∅) :
    dictFind (nfa_to_dfa n).dfa_trans (T, a) = some ∅ ∧
      (∅ : Finset σ) ∈ (nfa_to_dfa n).dfa_states := by
  have h := nfa_to_dfa_total n T hT a ha
  rw [hm, epsilon_closure_empty] at h
  exact ⟨h, nfa_to_dfa_closed n ((T, a), ∅) (mem_of_dictFind_some h)⟩

/-- Witness for the amended claim C3, at the dead-end NFA. -/
theorem empty_move_recorded_witness :
    ({"q0".data} : Finset (List Char)) ∈ (nfa_to_dfa deadEndNfa).dfa_states ∧
      "a" ∈ deadEndNfa.alphabet ∧ move deadEndNfa {"q0".data} "a" = ∅ ∧
      (dictFind (nfa_to_dfa deadEndNfa).dfa_trans ({"q0".data}, "a") = some ∅ ∧
        (∅ : Finset (List Char)) ∈ (nfa_to_dfa deadEndNfa).dfa_states) :=
  ⟨by decide, by decide, by decide,
    empty_move_recorded deadEndNfa {"q0".data} "a" (by decide) (by decide) (by decide)⟩

/-- Counterexample for claim C4: parsing a text with two `Transitions`
lines for `(q0, a)` (to `q1` and then to `q2`) yields an automaton whose
destination set for that pair is `{q2}` alone — the later line overwrote
the earlier one instead of being unioned with it. -/
theorem parse_overwrites_duplicates :
    (parse_from_text dupText).map (fun m => dictGetD m.trans ("q0", "a") ∅)
        = some {"q2"} ∧
      (parse_from_text dupText).map
          (fun m => decide (({"q1", "q2"} : Finset String)
            ⊆ dictGetD m.trans ("q0", "a") ∅))
        = some false := by
  decide

/-- Claim C4 as amended: the constructor unions the destination sets of
entries supplied multiple times for the same `(source, symbol)` key, but
`parse_from_text` stores transition lines by plain dictionary assignment,
so a later line overwrites an earlier one for the same key: parsing a text
with two `Transitions` lines for the same source and symbol yields an NFA
whose transition set for that pair is the destination set of the later
line only. -/
theorem union_on_build_overwrite_on_parse :
    (∀ (states : Finset σ) (alphabet : Finset String)
        (entries : List ((σ × String) × Finset σ)) (start : σ)
        (accept : Finset σ) (k : σ × String),
        dictGetD (NFA.build states alphabet entries start accept).trans k ∅
          = unionValues entries k) ∧
      (parse_from_text dupText).map (fun m => dictGetD m.trans ("q0", "a") ∅)
        = some {"q2"} := by
  constructor
  · intro states alphabet entries start accept k
    exact buildTrans_getD entries k
  · decide

/-- Claim C5: for every NFA whose alphabet excludes the empty symbol, the
transition dictionary of the DFA returned by `nfa_to_dfa` contains no entry
whose symbol component is the empty symbol. -/
theorem dfa_trans_no_epsilon [LinearOrder σ] (n : NFA σ)
    (hno : "" ∉ n.alphabet) :
    ∀ e ∈ (nfa_to_dfa n).dfa_trans, e.1.2 ≠ "" := by
  intro e he heq
  have hmem := ((nfa_to_dfa_spec n).1.1.htrans e he).2.2.2
  rw [heq] at hmem
  exact hno hmem

/-- Witness for claim C5, at scenario A. -/
theorem dfa_trans_no_epsilon_witness :
    "" ∉ scenarioA.alphabet ∧
      ∀ e ∈ (nfa_to_dfa scenarioA).dfa_trans, e.1.2 ≠ "" :=
  ⟨by decide, dfa_trans_no_epsilon scenarioA (by decide)⟩

/-- Claim C6: for every well-formed NFA, `nfa_to_dfa` terminates — the
worklist is fully drained by the proved-sufficient fuel — and the returned
DFA state set has cardinality at most `2 ^ |NFA.states|`. -/
theorem termination_and_state_bound [LinearOrder σ] (n : NFA σ)
    (hwf : wellFormed n) :
    (nfa_to_dfa n).queue = [] ∧
      (nfa_to_dfa n).dfa_states.card ≤ 2 ^ n.states.card := by
  refine ⟨nfa_to_dfa_queue_eq_nil n, ?_⟩
  have h1 := states_card_le (nfa_to_dfa_spec n).1.1
  have h2 : (bigU n).card ≤ n.states.card :=
    Finset.card_le_card (bigU_subset_states hwf)
  exact h1.trans (Nat.pow_le_pow_right (by norm_num) h2)

/-- Witness for claim C6, at scenario A. -/
theorem termination_and_state_bound_witness :
    wellFormed scenarioA ∧
      ((nfa_to_dfa scenarioA).queue = [] ∧
        (nfa_to_dfa scenarioA).dfa_states.card ≤ 2 ^ scenarioA.states.card) :=
  ⟨by decide, termination_and_state_bound scenarioA (by decide)⟩

/-- Claim C8: on scenario B (pure epsilon chain, empty alphabet),
`nfa_to_dfa` returns exactly one DFA state — the set `{q0,q1,q2}` — which
is both the start state and accepting, and an empty transition
dictionary. -/
theorem scenarioB_degenerate_dfa :
    (nfa_to_dfa scenarioB).dfa_states
        = {({"q0".data, "q1".data, "q2".data} : Finset (List Char))} ∧
      (nfa_to_dfa scenarioB).start = {"q0".data, "q1".data, "q2".data} ∧
      (nfa_to_dfa scenarioB).dfa_accept
        = {({"q0".data, "q1".data, "q2".data} : Finset (List Char))} ∧
      (nfa_to_dfa scenarioB).dfa_trans = [] := by
  decide

/-- Claim C9: `epsilon_closure`, `move` and `nfa_to_dfa` leave the input
NFA unchanged — in the state-passing embedding, where every dictionary read
the source performs is threaded through `dgetM`, each function returns the
automaton exactly as received (states, alphabet, transition dictionary with
its key set, start and accept), and its result agrees with the pure
version. -/
theorem core_functions_pure [LinearOrder σ] (n : NFA σ) (S : Finset σ)
    (sym : String) :
    (epsilon_closureT n S).2 = n ∧ (epsilon_closureT n S).1 = epsilon_closure n S ∧
      (moveT n S sym).2 = n ∧ (moveT n S sym).1 = move n S sym ∧
      (nfa_to_dfaT n).2 = n ∧ (nfa_to_dfaT n).1 = nfa_to_dfa n := by
  refine ⟨?_, ?_, ?_, ?_, ?_, ?_⟩
  · rw [epsilon_closureT_eq]
  · rw [epsilon_closureT_eq]
  · rw [moveT_eq]
  · rw [moveT_eq]
  · rw [nfa_to_dfaT_eq]
  · rw [nfa_to_dfaT_eq]

/-- Claim C10: for every NFA with a non-empty alphabet, the returned DFA is
total over its discovered states — each discovered `T` and alphabet symbol
`a` has exactly one entry in the transition dictionary — and whenever a
move set is empty the empty set itself is a discovered, non-accepting DFA
state. -/
theorem dfa_total_over_discovered [LinearOrder σ] (n : NFA σ)
    (hne : n.alphabet.Nonempty) (T : Finset σ)
    (hT : T ∈ (nfa_to_dfa n).dfa_states) (a : String) (ha : a ∈ n.alphabet) :
    ((nfa_to_dfa n).dfa_trans.filter (fun e => decide (e.1 = (T, a)))).length = 1 ∧
      (move n T a = ∅ → (∅ : Finset σ) ∈ (nfa_to_dfa n).dfa_states ∧
        (∅ : Finset σ) ∉ (nfa_to_dfa n).dfa_accept) := by
  rcases nfa_to_dfa_spec n with ⟨⟨hcore, hproc⟩, hq⟩
  constructor
  · have hkey : hasKey (nfa_to_dfa n).dfa_trans (T, a) := by
      rcases hproc T hT with h | h
      · rw [hq] at h; cases h
      · exact h a ha
    have h1 : ((nfa_to_dfa n).dfa_trans.filter (fun e => decide (e.1 = (T, a)))).length
        = List.countP (fun e => decide (e.1 = (T, a))) (nfa_to_dfa n).dfa_trans :=
      (List.countP_eq_length_filter _ _).symm
    have h2 : List.countP (fun e => decide (e.1 = (T, a))) (nfa_to_dfa n).dfa_trans
        = List.countP (fun k => decide (k = (T, a))) (keysOf (nfa_to_dfa n).dfa_trans) := by
      unfold keysOf
      rw [List.countP_map]
      rfl
    have h3 : List.countP (fun k => decide (k = (T, a))) (keysOf (nfa_to_dfa n).dfa_trans)
        = @List.count _ instBEqOfDecidableEq (T, a) (keysOf (nfa_to_dfa n).dfa_trans) :=
      (@List.count_eq_countP _ instBEqOfDecidableEq (T, a)
        (keysOf (nfa_to_dfa n).dfa_trans)).symm
    rw [h1, h2, h3]
    exact List.count_eq_one_of_mem hcore.hkeys (hasKey_iff_mem_keysOf.mp hkey)
  · intro hm
    have h := nfa_to_dfa_total n T hT a ha
    rw [hm, epsilon_closure_empty] at h
    refine ⟨nfa_to_dfa_closed n ((T, a), ∅) (mem_of_dictFind_some h), ?_⟩
    intro hacc
    rcases (hcore.haccept ∅).mp hacc with ⟨-, hne'⟩
    rw [Finset.inter_empty] at hne'
    exact Finset.not_nonempty_empty hne'

/-- Witness for claim C10, at the dead-end NFA. -/
theorem dfa_total_over_discovered_witness :
    deadEndNfa.alphabet.Nonempty ∧
      ({"q0".data} : Finset (List Char)) ∈ (nfa_to_dfa deadEndNfa).dfa_states ∧
      "a" ∈ deadEndNfa.alphabet ∧
      (((nfa_to_dfa deadEndNfa).dfa_trans.filter
          (fun e => decide (e.1 = ({"q0".data}, "a")))).length = 1 ∧
        (move deadEndNfa {"q0".data} "a" = ∅ →
          (∅ : Finset (List Char)) ∈ (nfa_to_dfa deadEndNfa).dfa_states ∧
            (∅ : Finset (List Char)) ∉ (nfa_to_dfa deadEndNfa).dfa_accept)) :=
  ⟨by decide, by decide, by decide,
    dfa_total_over_discovered deadEndNfa (by decide) {"q0".data} (by decide)
      "a" (by decide)⟩

end NfaToDfa
